import Mathlib

/-!
Verification of the transport pipeline in `nqft/hall_effect.py`.

The numeric core is embedded shallowly: numpy float arrays become real-valued
functions of natural-number indices, `numpy` reductions become `Finset` sums,
and the fallible branch in `Model.sigma_ii` (an `if`/`elif` with no `else`,
whose fall-through raises `UnboundLocalError`) becomes an `Except` value.
Floating-point division by zero in `get_hall_nb` is modelled by `NpVal`,
a four-way sum of a finite real and the IEEE special values that numpy
produces instead of raising.
-/

open Real

noncomputable section

/-- Elementary charge, the `scipy.constants.e` value used by the source. -/
def elemCharge : ℝ := 1.602176634e-19

/-- Point `i` of `numpy.linspace(-pi, pi, R)`; both momentum axes use this grid. -/
def kGrid (R i : ℕ) : ℝ := -π + 2 * π * i / ((R : ℝ) - 1)

/-- The meshgrid x-array: `k_x[i, j] = k_s[j]` where `k_s = linspace(-pi, pi, R)`. -/
def meshX (R : ℕ) : ℕ → ℕ → ℝ := fun _ j => kGrid R j

/-- The meshgrid y-array: `k_y[i, j] = k_s[i]` where `k_s = linspace(-pi, pi, R)`. -/
def meshY (R : ℕ) : ℕ → ℕ → ℝ := fun i _ => kGrid R i

/-- The spec's closed-form band `E0`, as one scalar function of a momentum point. -/
def E0 (hops : ℝ × ℝ × ℝ) (kx ky : ℝ) : ℝ :=
  -2 * hops.1 * (Real.cos kx + Real.cos ky)
    - 2 * hops.2.1 * (Real.cos (kx + ky) + Real.cos (kx - ky))
    - 2 * hops.2.2 * (Real.cos (2 * kx) + Real.cos (2 * ky))

/-- The five derivative arrays produced by `get_energies`. -/
structure Derivs where
  dE_dx : ℕ → ℕ → ℝ
  ddE_dxx : ℕ → ℕ → ℝ
  dE_dy : ℕ → ℕ → ℝ
  ddE_dyy : ℕ → ℕ → ℝ
  ddE_dxdy : ℕ → ℕ → ℝ

/-- Embedding of `get_energies` (hall_effect.py, lines 29-90): band energies per
chemical potential together with the closed-form dispersion derivatives. -/
def get_energies (hops : ℝ × ℝ × ℝ) (kx ky : ℕ → ℕ → ℝ) (mus : ℕ → ℝ) :
    (ℕ → ℕ → ℕ → ℝ) × Derivs :=
  let t := hops.1
  let tp := hops.2.1
  let tpp := hops.2.2
  let a : ℕ → ℕ → ℝ := fun i j => -2 * t * (Real.cos (kx i j) + Real.cos (ky i j))
  let b : ℕ → ℕ → ℝ := fun i j =>
    -2 * tp * (Real.cos (kx i j + ky i j) + Real.cos (kx i j - ky i j))
  let c : ℕ → ℕ → ℝ := fun i j =>
    -2 * tpp * (Real.cos (2 * kx i j) + Real.cos (2 * ky i j))
  let E : ℕ → ℕ → ℕ → ℝ := fun m i j => a i j + b i j + c i j - mus m
  let dEs : Derivs :=
    { dE_dx := fun i j => 2 * (t * Real.sin (kx i j) +
        tp * (Real.sin (kx i j - ky i j) + Real.sin (kx i j + ky i j)) +
        2 * tpp * Real.sin (2 * kx i j))
      ddE_dxx := fun i j => 2 * (t * Real.cos (kx i j) +
        tp * (Real.cos (kx i j - ky i j) + Real.cos (kx i j + ky i j)) +
        4 * tpp * Real.cos (2 * kx i j))
      dE_dy := fun i j => 2 * (t * Real.sin (ky i j) +
        tp * (Real.sin (kx i j + ky i j) - Real.sin (kx i j - ky i j)) +
        2 * tpp * Real.sin (2 * ky i j))
      ddE_dyy := fun i j => 2 * (t * Real.cos (ky i j) +
        tp * (Real.cos (kx i j + ky i j) + Real.cos (kx i j - ky i j)) +
        4 * tpp * Real.cos (2 * ky i j))
      ddE_dxdy := fun i j =>
        2 * tp * (Real.cos (kx i j + ky i j) - Real.cos (kx i j - ky i j)) }
  (E, dEs)

/-- Python `round(x, 2)` on a real value (no ties occur at the inputs involved). -/
def round2 (x : ℝ) : ℝ := (round (100 * x) : ℤ) / 100

/-- Embedding of `get_spectral_weight` (hall_effect.py, lines 93-140).  Returns the
(possibly diamond-filtered) spectral weight together with the diamond outline
array `diag_line` that the source returns as second component. -/
def get_spectral_weight (omega eta : ℝ) (dim : ℕ) (E : ℕ → ℕ → ℕ → ℝ)
    (filter : Bool) : (ℕ → ℕ → ℕ → ℝ) × (ℕ → ℕ → ℝ) :=
  let buffer : ℕ → ℝ := fun i => kGrid dim i
  let diag_line : ℕ → ℕ → ℝ := fun i j =>
    if round2 (|buffer i| + |buffer j|) = round2 π then 1 else 0
  let diag_filter : ℕ → ℕ → ℝ := fun i j =>
    if filter then (if |buffer i| + |buffer j| ≤ π then 1 else 0) else 1
  let A : ℕ → ℕ → ℕ → ℂ := fun m i j =>
    -1 / (π : ℂ) * (1 / ((omega : ℂ) + (eta : ℂ) * Complex.I - (E m i j : ℂ)))
  (fun m i j => diag_filter i j * (A m i j).im, diag_line)

/-- Number of elements of `numpy.arange(start, stop, step)`. -/
def arangeLen (start stop step : ℚ) : ℕ := (Int.ceil ((stop - start) / step)).toNat

/-- Element `n` of `numpy.arange(start, step = step)`. -/
def arangeVal (start step : ℚ) (n : ℕ) : ℝ := (start : ℝ) + n * (step : ℝ)

/-- The fixed five-element chemical-potential list of the reference-data mode. -/
def petersMus : ℕ → ℝ := fun n => [(-1.3 : ℝ), -1.0, -0.75, -0.4, 0.0].getD n 0

/-- State of a constructed `Model` (hall_effect.py, class `Model`).  The plotting
field `diamond` is omitted: it is consumed only by the plotting methods, which
are out of the embedded core. -/
structure Model where
  w : ℝ
  use_peters : Bool
  eta : ℝ
  norm : ℝ
  hops : ℝ × ℝ × ℝ
  M : ℕ
  mus : ℕ → ℝ
  R : ℕ
  E : ℕ → ℕ → ℕ → ℝ
  dEs : Derivs
  A : ℕ → ℕ → ℕ → ℝ

/-- Embedding of `Model.__init__` (hall_effect.py, lines 174-211).  The argument
`fermi_arc_data` stands for the external `read_fermi_arc()` tables (an
out-of-scope data source loaded from disk in the source). -/
def Model.init (hoppings : ℝ × ℝ × ℝ) (broadening omega : ℝ)
    (mus : ℚ × ℚ × ℚ) (resolution : ℕ) (use_peters use_filter : Bool)
    (fermi_arc_data : ℕ → ℕ → ℕ → ℝ) : Model :=
  if use_peters then
    let Ed := get_energies hoppings (meshX 200) (meshY 200) petersMus
    { w := omega, use_peters := use_peters, eta := 0.1, norm := 1 / 200 ^ 2,
      hops := (1.0, -0.3, 0.2), M := 5, mus := petersMus, R := 200,
      E := Ed.1, dEs := Ed.2, A := fermi_arc_data }
  else
    let museq : ℕ → ℝ := arangeVal mus.1 mus.2.2
    let Ed := get_energies hoppings (meshX resolution) (meshY resolution) museq
    let Af := get_spectral_weight omega broadening resolution Ed.1 use_filter
    { w := omega, use_peters := use_peters, eta := broadening,
      norm := 1 / (resolution : ℝ) ^ 2, hops := hoppings,
      M := arangeLen mus.1 mus.2.1 mus.2.2, mus := museq, R := resolution,
      E := Ed.1, dEs := Ed.2, A := Af.1 }

/-- Per-slice body shared by both branches of `Model.sigma_ii`
(hall_effect.py, lines 320-321), for a chosen derivative array. -/
def sigmaIIBody (m : Model) (dE : ℕ → ℕ → ℝ) : ℕ → ℝ := fun mu =>
  2 * ((-elemCharge) ^ 2 * π) *
    ∑ i ∈ Finset.range m.R, ∑ j ∈ Finset.range m.R, (dE i j) ^ 2 * (m.A mu i j) ^ 2

/-- Embedding of `Model.sigma_ii` (hall_effect.py, lines 299-323).  The source
selects `dE` in an `if`/`elif` with no `else`; any other string leaves the local
`dE` unassigned and the method raises `UnboundLocalError` at `dE**2`, modelled
here as an `Except.error`. -/
def Model.sigma_ii (m : Model) (v : String) : Except String (ℕ → ℝ) :=
  if v = "x" then Except.ok (sigmaIIBody m m.dEs.dE_dx)
  else if v = "y" then Except.ok (sigmaIIBody m m.dEs.dE_dy)
  else Except.error ("UnboundLocalError")

/-- Embedding of `Model.sigma_ij` (hall_effect.py, lines 325-342). -/
def Model.sigma_ij (m : Model) : ℕ → ℝ := fun mu =>
  2 * ((-elemCharge) ^ 3 * π ^ 2 / 3) *
    ∑ i ∈ Finset.range m.R, ∑ j ∈ Finset.range m.R,
      ((-2 * m.dEs.dE_dx i j * m.dEs.dE_dy i j * m.dEs.ddE_dxdy i j
        + (m.dEs.dE_dx i j) ^ 2 * m.dEs.ddE_dyy i j
        + (m.dEs.dE_dy i j) ^ 2 * m.dEs.ddE_dxx i j) * (m.A mu i j) ^ 3)

/-- Embedding of `Model.get_density` (hall_effect.py, lines 344-357).  The
`float128` widening of the source is a float-precision safeguard; over the
reals the formula is exact as written. -/
def Model.get_density (m : Model) : ℕ → ℝ := fun mu =>
  m.norm * ∑ i ∈ Finset.range m.R, ∑ j ∈ Finset.range m.R,
    2 / (1 + Real.exp (100 * m.E mu i j))

/-- Result of one numpy floating-point division: a finite value or one of the
IEEE special values numpy produces (with a warning, never an exception). -/
inductive NpVal where
  | fin (x : ℝ)
  | pinf
  | ninf
  | nan
deriving DecidableEq

/-- Division with numpy semantics: a zero divisor yields `inf`, `-inf` or `nan`
according to the numerator's sign instead of raising. -/
def npDiv (a b : ℝ) : NpVal :=
  if b ≠ 0 then NpVal.fin (a / b)
  else if 0 < a then NpVal.pinf
  else if a < 0 then NpVal.ninf
  else NpVal.nan

/-- Embedding of `Model.get_hall_nb` (hall_effect.py, lines 359-372).
`self.sigma_ii("x")` and `self.sigma_ii("y")` always take the assigned
branches, so their values are the two `sigmaIIBody` instances (see
`Model.sigma_ii_x` and `Model.sigma_ii_y` below). -/
def Model.get_hall_nb (m : Model) : ℕ → NpVal := fun mu =>
  npDiv (m.norm * sigmaIIBody m m.dEs.dE_dx mu * sigmaIIBody m m.dEs.dE_dy mu)
    (elemCharge * m.sigma_ij mu)

/-- The `"x"` call of `sigma_ii` returns the x-axis conductivity body. -/
theorem Model.sigma_ii_x (m : Model) :
    m.sigma_ii ("x") = Except.ok (sigmaIIBody m m.dEs.dE_dx) := rfl

/-- The `"y"` call of `sigma_ii` returns the y-axis conductivity body. -/
theorem Model.sigma_ii_y (m : Model) :
    m.sigma_ii ("y") = Except.ok (sigmaIIBody m m.dEs.dE_dy) := rfl

/-- C9: with hoppings (1.0, -0.3, 0.2) and a chemical potential of 0, the band
energy computed by `get_energies` at the momentum point kx = ky = 0 equals
exactly -3.6. -/
theorem C9_energy_at_origin (kx ky : ℕ → ℕ → ℝ) (mus : ℕ → ℝ) (m i j : ℕ)
    (hx : kx i j = 0) (hy : ky i j = 0) (hm : mus m = 0) :
    (get_energies (1.0, -0.3, 0.2) kx ky mus).1 m i j = -3.6 := by
  simp only [get_energies, hx, hy, hm]
  norm_num

/-- Witness for C9 at the constant-zero arrays. -/
theorem C9_energy_at_origin_witness :
    (get_energies (1.0, -0.3, 0.2) (fun _ _ => 0) (fun _ _ => 0) (fun _ => 0)).1 0 0 0
      = -3.6 :=
  C9_energy_at_origin (fun _ _ => 0) (fun _ _ => 0) (fun _ => 0) 0 0 0 rfl rfl rfl

/-- C7: the transverse conductivity of every model is, per chemical-potential
slice, 2 * (-e)^3 * (pi^2/3) times the full-grid sum of (c1+c2+c3) * A^3 with
the three curvature terms of the claim, and no grid-size normalization. -/
theorem C7_sigma_ij_formula (m : Model) (mu : ℕ) :
    m.sigma_ij mu = 2 * (-elemCharge) ^ 3 * (π ^ 2 / 3) *
      ∑ i ∈ Finset.range m.R, ∑ j ∈ Finset.range m.R,
        ((-2 * m.dEs.dE_dx i j * m.dEs.dE_dy i j * m.dEs.ddE_dxdy i j
          + (m.dEs.dE_dx i j) ^ 2 * m.dEs.ddE_dyy i j
          + (m.dEs.dE_dy i j) ^ 2 * m.dEs.ddE_dxx i j) * (m.A mu i j) ^ 3) := by
  unfold Model.sigma_ij
  ring

/-- C10: calling `sigma_ii` with any string other than `"x"` or `"y"` hits the
fall-through of the `if`/`elif` (the local `dE` is never assigned), an uncaught
`UnboundLocalError`; the two valid axis names return normally. -/
theorem C10_sigma_ii_fallthrough (m : Model) (v : String) :
    ((v ≠ "x" ∧ v ≠ "y") → m.sigma_ii v = Except.error ("UnboundLocalError"))
    ∧ ((v = "x" ∨ v = "y") → ∃ r, m.sigma_ii v = Except.ok r) := by
  constructor
  · intro h
    simp [Model.sigma_ii, h.1, h.2]
  · intro h
    rcases h with h | h <;> subst h
    · exact ⟨_, Model.sigma_ii_x m⟩
    · exact ⟨_, Model.sigma_ii_y m⟩

/-- Witness for C10: a concrete model rejects `"z"` and accepts `"x"`. -/
theorem C10_sigma_ii_fallthrough_witness :
    ((Model.init (1, 0, 0) 0.1 0 (0, 2, 1) 1 false false
        (fun _ _ _ => 0)).sigma_ii ("z") = Except.error ("UnboundLocalError"))
    ∧ ∃ r, (Model.init (1, 0, 0) 0.1 0 (0, 2, 1) 1 false false
        (fun _ _ _ => 0)).sigma_ii ("x") = Except.ok r :=
  ⟨(C10_sigma_ii_fallthrough _ "z").1 ⟨by decide, by decide⟩,
   (C10_sigma_ii_fallthrough _ "x").2 (Or.inl rfl)⟩

/-- The x-derivative formula produced by `get_energies` is the exact derivative
of the band `E0` in the first momentum coordinate. -/
theorem E0_hasDerivAt_x (hops : ℝ × ℝ × ℝ) (c d : ℝ) :
    HasDerivAt (fun x => E0 hops x d)
      (2 * (hops.1 * Real.sin c
        + hops.2.1 * (Real.sin (c - d) + Real.sin (c + d))
        + 2 * hops.2.2 * Real.sin (2 * c))) c := by
  have h1 : HasDerivAt (fun x : ℝ => Real.cos x + Real.cos d) (-Real.sin c) c :=
    (Real.hasDerivAt_cos c).add_const _
  have h2 : HasDerivAt (fun x : ℝ => Real.cos (x + d)) (-Real.sin (c + d) * 1) c :=
    ((hasDerivAt_id c).add_const d).cos
  have h3 : HasDerivAt (fun x : ℝ => Real.cos (x - d)) (-Real.sin (c - d) * 1) c :=
    ((hasDerivAt_id c).sub_const d).cos
  have h4 : HasDerivAt (fun x : ℝ => Real.cos (2 * x)) (-Real.sin (2 * c) * (2 * 1)) c := by
    have h5 := ((hasDerivAt_id c).const_mul (2 : ℝ)).cos
    simpa using h5
  have H := ((h1.const_mul (-2 * hops.1)).sub
      ((h2.add h3).const_mul (2 * hops.2.1))).sub
      ((h4.add_const (Real.cos (2 * d))).const_mul (2 * hops.2.2))
  convert H using 1
  ring

/-- C6: at every grid point, the `dE_dx` array returned by `get_energies` is the
exact analytic partial derivative of `E0` with respect to kx, and the
derivative arrays do not depend on the chemical-potential sweep. -/
theorem C6_dEdx_exact (hops : ℝ × ℝ × ℝ) (kx ky : ℕ → ℕ → ℝ)
    (musA musB : ℕ → ℝ) (i j : ℕ) :
    HasDerivAt (fun x => E0 hops x (ky i j))
      ((get_energies hops kx ky musA).2.dE_dx i j) (kx i j)
    ∧ (get_energies hops kx ky musA).2 = (get_energies hops kx ky musB).2 := by
  refine ⟨?_, rfl⟩
  have h : (get_energies hops kx ky musA).2.dE_dx i j
      = 2 * (hops.1 * Real.sin (kx i j)
        + hops.2.1 * (Real.sin (kx i j - ky i j) + Real.sin (kx i j + ky i j))
        + 2 * hops.2.2 * Real.sin (2 * kx i j)) := rfl
  rw [h]
  exact E0_hasDerivAt_x hops (kx i j) (ky i j)

/-- Every Fermi-Dirac occupation term `2 / (1 + exp x)` lies strictly between
0 and 2. -/
theorem fermiTerm_mem (x : ℝ) : 2 / (1 + Real.exp x) ∈ Set.Ioo (0 : ℝ) 2 := by
  have hx := Real.exp_pos x
  constructor
  · positivity
  · rw [div_lt_iff₀ (by linarith)]
    linarith

/-- The occupation term is antitone in its argument. -/
theorem fermiTerm_le {x y : ℝ} (hxy : x ≤ y) :
    2 / (1 + Real.exp y) ≤ 2 / (1 + Real.exp x) := by
  have hx := Real.exp_pos x
  have hy := Real.exp_pos y
  have h2 : Real.exp x ≤ Real.exp y := Real.exp_le_exp.mpr hxy
  gcongr

/-- The occupation term is strictly antitone in its argument. -/
theorem fermiTerm_lt {x y : ℝ} (hxy : x < y) :
    2 / (1 + Real.exp y) < 2 / (1 + Real.exp x) := by
  have hx := Real.exp_pos x
  have h2 : Real.exp x < Real.exp y := Real.exp_lt_exp.mpr hxy
  have h1 : (0 : ℝ) < 1 + Real.exp x := by linarith
  exact div_lt_div_of_pos_left (by norm_num) h1 (by linarith)

/-- Any model whose normalization is one over the squared grid size has all its
densities inside [0, 2]. -/
theorem density_mem_Icc (m : Model) (hnorm : m.norm = 1 / (m.R : ℝ) ^ 2) (mu : ℕ) :
    m.get_density mu ∈ Set.Icc (0 : ℝ) 2 := by
  have hlb : (0 : ℝ) ≤ ∑ i ∈ Finset.range m.R, ∑ j ∈ Finset.range m.R,
      2 / (1 + Real.exp (100 * m.E mu i j)) :=
    Finset.sum_nonneg fun i _ => Finset.sum_nonneg fun j _ => (fermiTerm_mem _).1.le
  have hub : (∑ i ∈ Finset.range m.R, ∑ j ∈ Finset.range m.R,
      2 / (1 + Real.exp (100 * m.E mu i j))) ≤ (m.R : ℝ) * ((m.R : ℝ) * 2) := by
    calc (∑ i ∈ Finset.range m.R, ∑ j ∈ Finset.range m.R,
        2 / (1 + Real.exp (100 * m.E mu i j)))
        ≤ ∑ _i ∈ Finset.range m.R, ∑ _j ∈ Finset.range m.R, (2 : ℝ) :=
          Finset.sum_le_sum fun i _ =>
            Finset.sum_le_sum fun j _ => (fermiTerm_mem _).2.le
      _ = (m.R : ℝ) * ((m.R : ℝ) * 2) := by
          simp [Finset.sum_const, mul_comm]
  unfold Model.get_density
  rw [hnorm]
  rcases eq_or_ne m.R 0 with h0 | h0
  · simp [h0]
  · have hR : (0 : ℝ) < (m.R : ℝ) := Nat.cast_pos.mpr (Nat.pos_of_ne_zero h0)
    constructor
    · exact mul_nonneg (by positivity) hlb
    · calc 1 / (m.R : ℝ) ^ 2 * (∑ i ∈ Finset.range m.R, ∑ j ∈ Finset.range m.R,
          2 / (1 + Real.exp (100 * m.E mu i j)))
          ≤ 1 / (m.R : ℝ) ^ 2 * ((m.R : ℝ) * ((m.R : ℝ) * 2)) := by
            exact mul_le_mul_of_nonneg_left hub (by positivity)
        _ = 2 := by field_simp; ring

/-- Both construction branches normalize by one over the squared grid size. -/
theorem Model.init_norm (hoppings : ℝ × ℝ × ℝ) (broadening omega : ℝ)
    (mus : ℚ × ℚ × ℚ) (resolution : ℕ) (up uf : Bool) (fad : ℕ → ℕ → ℕ → ℝ) :
    (Model.init hoppings broadening omega mus resolution up uf fad).norm
      = 1 / ((Model.init hoppings broadening omega mus resolution up uf fad).R : ℝ) ^ 2 := by
  cases up <;> simp [Model.init]

/-- C8: for every constructed model and every sweep index, the density lies in
[0, 2]; moreover every single occupation term lies strictly inside (0, 2), and
the normalization is one over the squared grid resolution. -/
theorem C8_density_bounds (hoppings : ℝ × ℝ × ℝ) (broadening omega : ℝ)
    (mus : ℚ × ℚ × ℚ) (resolution : ℕ) (up uf : Bool) (fad : ℕ → ℕ → ℕ → ℝ)
    (mu : ℕ) :
    (Model.init hoppings broadening omega mus resolution up uf fad).get_density mu
      ∈ Set.Icc (0 : ℝ) 2
    ∧ (∀ i j : ℕ, 2 / (1 + Real.exp (100 *
        (Model.init hoppings broadening omega mus resolution up uf fad).E mu i j))
        ∈ Set.Ioo (0 : ℝ) 2)
    ∧ (Model.init hoppings broadening omega mus resolution up uf fad).norm
        = 1 / ((Model.init hoppings broadening omega mus resolution up uf fad).R : ℝ) ^ 2 :=
  ⟨density_mem_Icc _ (Model.init_norm hoppings broadening omega mus resolution up uf fad) mu,
   fun _ _ => fermiTerm_mem _,
   Model.init_norm hoppings broadening omega mus resolution up uf fad⟩

/-- In both construction branches the band energy depends on the sweep index
only through subtraction of the chemical potential. -/
theorem Model.init_E_sub (hoppings : ℝ × ℝ × ℝ) (broadening omega : ℝ)
    (mus : ℚ × ℚ × ℚ) (resolution : ℕ) (up uf : Bool) (fad : ℕ → ℕ → ℕ → ℝ)
    (mu i j : ℕ) :
    (Model.init hoppings broadening omega mus resolution up uf fad).E mu i j
      = (Model.init hoppings broadening omega mus resolution up uf fad).E 0 i j
        + (Model.init hoppings broadening omega mus resolution up uf fad).mus 0
        - (Model.init hoppings broadening omega mus resolution up uf fad).mus mu := by
  cases up <;> simp [Model.init, get_energies]

/-- C2 (amended): for fixed hoppings and grid, with the chemical-potential sweep
listed in increasing order, the density returned by `get_density` is
monotonically non-DEcreasing in the chemical potential: for i < j,
density(mu_i) ≤ density(mu_j).  (The claim's non-increasing direction is
refuted by `C2_counterexample`.) -/
theorem C2_density_nondecreasing (hoppings : ℝ × ℝ × ℝ) (broadening omega : ℝ)
    (mus : ℚ × ℚ × ℚ) (resolution : ℕ) (up uf : Bool) (fad : ℕ → ℕ → ℕ → ℝ)
    (i j : ℕ) (hij : i < j)
    (hinc : ∀ a b : ℕ, a < b →
      (Model.init hoppings broadening omega mus resolution up uf fad).mus a
        < (Model.init hoppings broadening omega mus resolution up uf fad).mus b) :
    (Model.init hoppings broadening omega mus resolution up uf fad).get_density i
      ≤ (Model.init hoppings broadening omega mus resolution up uf fad).get_density j := by
  set m := Model.init hoppings broadening omega mus resolution up uf fad with hm
  have hmus : m.mus i ≤ m.mus j := (hinc i j hij).le
  have hE : ∀ a b : ℕ, 100 * m.E j a b ≤ 100 * m.E i a b := by
    intro a b
    have h1 := Model.init_E_sub hoppings broadening omega mus resolution up uf fad j a b
    have h2 := Model.init_E_sub hoppings broadening omega mus resolution up uf fad i a b
    rw [← hm] at h1 h2
    rw [h1, h2]
    linarith
  have hnorm := Model.init_norm hoppings broadening omega mus resolution up uf fad
  rw [← hm] at hnorm
  unfold Model.get_density
  apply mul_le_mul_of_nonneg_left _ (by rw [hnorm]; positivity)
  apply Finset.sum_le_sum
  intro a _
  apply Finset.sum_le_sum
  intro b _
  exact fermiTerm_le (hE a b)

/-- Witness for C2 at a concrete synthetic model whose sweep is 0, 1. -/
theorem C2_density_nondecreasing_witness :
    ((0 : ℕ) < 1)
    ∧ (∀ a b : ℕ, a < b →
        (Model.init (1, 0, 0) 0.1 0 (0, 2, 1) 1 false false (fun _ _ _ => 0)).mus a
          < (Model.init (1, 0, 0) 0.1 0 (0, 2, 1) 1 false false (fun _ _ _ => 0)).mus b)
    ∧ (Model.init (1, 0, 0) 0.1 0 (0, 2, 1) 1 false false (fun _ _ _ => 0)).get_density 0
        ≤ (Model.init (1, 0, 0) 0.1 0 (0, 2, 1) 1 false false (fun _ _ _ => 0)).get_density 1 := by
  have hinc : ∀ a b : ℕ, a < b →
      (Model.init (1, 0, 0) 0.1 0 (0, 2, 1) 1 false false (fun _ _ _ => 0)).mus a
        < (Model.init (1, 0, 0) 0.1 0 (0, 2, 1) 1 false false (fun _ _ _ => 0)).mus b := by
    intro a b h
    simp [Model.init, arangeVal]
    exact_mod_cast h
  exact ⟨Nat.zero_lt_one, hinc,
    C2_density_nondecreasing (1, 0, 0) 0.1 0 (0, 2, 1) 1 false false (fun _ _ _ => 0)
      0 1 Nat.zero_lt_one hinc⟩

/-- Counterexample to C2 as stated: on a concrete model with an increasing
sweep (mu_0 = 0 < mu_1 = 1), the density strictly INCREASES from index 0 to 1,
so density(mu_0) ≥ density(mu_1) fails. -/
theorem C2_counterexample :
    (Model.init (1, 0, 0) 0.1 0 (0, 2, 1) 1 false false (fun _ _ _ => 0)).mus 0
      < (Model.init (1, 0, 0) 0.1 0 (0, 2, 1) 1 false false (fun _ _ _ => 0)).mus 1
    ∧ (Model.init (1, 0, 0) 0.1 0 (0, 2, 1) 1 false false (fun _ _ _ => 0)).get_density 0
        < (Model.init (1, 0, 0) 0.1 0 (0, 2, 1) 1 false false (fun _ _ _ => 0)).get_density 1 := by
  constructor
  · simp [Model.init, arangeVal]
  · have hg : kGrid 1 0 = -π := by simp [kGrid]
    simp only [Model.init, Model.get_density, get_energies, meshX, meshY, arangeVal,
      Finset.sum_range_one, Bool.false_eq_true, if_false]
    rw [hg]
    norm_num [Real.cos_neg, Real.cos_pi]
    exact fermiTerm_lt (by norm_num)

/-- C1 (amended): in reference-data mode the model stores the fixed hoppings
(1.0, -0.3, 0.2), broadening 0.1 and the fixed five-element sweep, but the
band energies are computed by `get_energies` from the constructor's `hoppings`
argument, not from the fixed stored triple.  (The claim's fixed-hoppings
energies are refuted by `C1_counterexample`.) -/
theorem C1_peters_mode (hoppings : ℝ × ℝ × ℝ) (broadening omega : ℝ)
    (mus : ℚ × ℚ × ℚ) (resolution : ℕ) (uf : Bool) (fad : ℕ → ℕ → ℕ → ℝ) :
    (Model.init hoppings broadening omega mus resolution true uf fad).hops = (1.0, -0.3, 0.2)
    ∧ (Model.init hoppings broadening omega mus resolution true uf fad).eta = 0.1
    ∧ (Model.init hoppings broadening omega mus resolution true uf fad).mus = petersMus
    ∧ (Model.init hoppings broadening omega mus resolution true uf fad).E
      = (get_energies hoppings (meshX 200) (meshY 200) petersMus).1 :=
  ⟨rfl, rfl, rfl, rfl⟩

/-- Counterexample to C1 as stated: constructing the reference-data model with
hoppings (0, 0, 0) yields a band energy at grid point (0, 0), first sweep
index, of 1.3, whereas the fixed hoppings (1.0, -0.3, 0.2) would give 5.7 —
the constructor argument does influence the stored energies. -/
theorem C1_counterexample :
    (Model.init (0, 0, 0) 0.1 0 (0, 1, 1) 4 true false (fun _ _ _ => 0)).E 0 0 0
      ≠ (get_energies (1.0, -0.3, 0.2) (meshX 200) (meshY 200) petersMus).1 0 0 0 := by
  have hg : kGrid 200 0 = -π := by simp [kGrid]
  have c1 : Real.cos (-π + -π) = 1 := by
    rw [show (-π + -π : ℝ) = -(2 * π) by ring, Real.cos_neg, Real.cos_two_pi]
  have c3 : Real.cos (2 * -π) = 1 := by
    rw [show (2 * -π : ℝ) = -(2 * π) by ring, Real.cos_neg, Real.cos_two_pi]
  have lhs : (Model.init (0, 0, 0) 0.1 0 (0, 1, 1) 4 true false (fun _ _ _ => 0)).E 0 0 0
      = 1.3 := by
    simp [Model.init, get_energies, petersMus]
  have rhs : (get_energies (1.0, -0.3, 0.2) (meshX 200) (meshY 200) petersMus).1 0 0 0
      = 5.7 := by
    simp only [get_energies, meshX, meshY, hg, petersMus]
    rw [c1, c3]
    norm_num [Real.cos_neg, Real.cos_pi]
  rw [lhs, rhs]
  norm_num

/-- C5: per chemical-potential slice, `get_hall_nb` is
norm * sigma_xx * sigma_yy / (e * sigma_xy) whenever sigma_xy is nonzero, and
a zero sigma_xy produces one of the IEEE special values inf, -inf or nan —
the embedding is a total function into `NpVal`, so no exception is raised. -/
theorem C5_hall_number (m : Model) (mu : ℕ) :
    (m.sigma_ij mu ≠ 0 →
      m.get_hall_nb mu = NpVal.fin (m.norm * sigmaIIBody m m.dEs.dE_dx mu
        * sigmaIIBody m m.dEs.dE_dy mu / (elemCharge * m.sigma_ij mu)))
    ∧ (m.sigma_ij mu = 0 →
      m.get_hall_nb mu = NpVal.pinf ∨ m.get_hall_nb mu = NpVal.ninf
        ∨ m.get_hall_nb mu = NpVal.nan) := by
  have he : elemCharge ≠ 0 := by norm_num [elemCharge]
  constructor
  · intro h
    unfold Model.get_hall_nb npDiv
    rw [if_pos (mul_ne_zero he h)]
  · intro h
    unfold Model.get_hall_nb npDiv
    rw [h, mul_zero]
    split_ifs with h1 h2 h3
    · exact absurd rfl h1
    · exact Or.inl rfl
    · exact Or.inr (Or.inl rfl)
    · exact Or.inr (Or.inr rfl)

/-- Witness for C5: a one-point grid model where every dispersion derivative
vanishes at (-pi, -pi), so sigma_xy is exactly zero and the Hall number is a
special value. -/
theorem C5_hall_number_witness :
    (Model.init (1, 0, 0) 0.1 0 (0, 2, 1) 1 false false (fun _ _ _ => 0)).sigma_ij 0 = 0
    ∧ ((Model.init (1, 0, 0) 0.1 0 (0, 2, 1) 1 false false (fun _ _ _ => 0)).get_hall_nb 0
        = NpVal.pinf
      ∨ (Model.init (1, 0, 0) 0.1 0 (0, 2, 1) 1 false false (fun _ _ _ => 0)).get_hall_nb 0
        = NpVal.ninf
      ∨ (Model.init (1, 0, 0) 0.1 0 (0, 2, 1) 1 false false (fun _ _ _ => 0)).get_hall_nb 0
        = NpVal.nan) := by
  have hg : kGrid 1 0 = -π := by simp [kGrid]
  have h0 : (Model.init (1, 0, 0) 0.1 0 (0, 2, 1) 1 false false (fun _ _ _ => 0)).sigma_ij 0
      = 0 := by
    simp only [Model.init, Model.sigma_ij, get_energies, meshX, meshY,
      Finset.sum_range_one, Bool.false_eq_true, if_false, hg]
    norm_num [Real.sin_neg, Real.sin_pi]
  exact ⟨h0,
    (C5_hall_number (Model.init (1, 0, 0) 0.1 0 (0, 2, 1) 1 false false (fun _ _ _ => 0)) 0).2 h0⟩

/-- Rounding a real number known to within a half-integer window. -/
theorem round_eq_of_bounds (n : ℤ) (x : ℝ) (h1 : (n : ℝ) - 1 / 2 ≤ x)
    (h2 : x < (n : ℝ) + 1 / 2) : round x = n := by
  rw [round_eq, Int.floor_eq_iff]
  constructor <;> push_cast <;> linarith

/-- C4 (amended): with the filter flag false, the spectral-weight output is
unmasked — each entry equals the raw broadening formula — but the second
returned array is the diamond boundary OUTLINE (`diag_line`), not the all-ones
filter array.  (The claim's all-ones second component is refuted by
`C4_counterexample`.) -/
theorem C4_unfiltered (omega eta : ℝ) (dim : ℕ) (E : ℕ → ℕ → ℕ → ℝ) (m i j : ℕ) :
    (get_spectral_weight omega eta dim E false).1 m i j
      = -(1 / π) * (1 / ((omega : ℂ) + (eta : ℂ) * Complex.I - (E m i j : ℂ))).im
    ∧ (get_spectral_weight omega eta dim E false).2 i j
      = (if round2 (|kGrid dim i| + |kGrid dim j|) = round2 π then 1 else 0) := by
  constructor
  · have hc : (-1 / (π : ℂ)) * (1 / ((omega : ℂ) + (eta : ℂ) * Complex.I - (E m i j : ℂ)))
        = ((-1 / π : ℝ) : ℂ) * (1 / ((omega : ℂ) + (eta : ℂ) * Complex.I - (E m i j : ℂ))) := by
      rw [Complex.ofReal_div, Complex.ofReal_neg, Complex.ofReal_one]
    show (1 : ℝ) * ((-1 / (π : ℂ)) * (1 / ((omega : ℂ) + (eta : ℂ) * Complex.I - (E m i j : ℂ)))).im
        = _
    rw [hc, Complex.im_ofReal_mul]
    ring
  · rfl

/-- C3 (amended): the spectral weight is the elementwise broadening formula
-(1/pi) Im(1/(omega + i eta - E)) per momentum point and mu slice, and with the
filter flag true it is multiplied by the mask that is 1 exactly where
|kx| + |ky| ≤ π with NO rounding (the source rounds only the diagnostic
outline); the second conjunct gives the equivalent closed Lorentzian form.
(The claim's rounded mask is refuted by `C3_counterexample`.) -/
theorem C3_filtered (omega eta : ℝ) (heta : 0 < eta) (dim : ℕ) (E : ℕ → ℕ → ℕ → ℝ)
    (m i j : ℕ) :
    (get_spectral_weight omega eta dim E true).1 m i j
      = (if |kGrid dim i| + |kGrid dim j| ≤ π then 1 else 0)
        * (-(1 / π) * (1 / ((omega : ℂ) + (eta : ℂ) * Complex.I - (E m i j : ℂ))).im)
    ∧ (get_spectral_weight omega eta dim E true).1 m i j
      = (if |kGrid dim i| + |kGrid dim j| ≤ π then 1 else 0)
        * (1 / π * (eta / ((omega - E m i j) ^ 2 + eta ^ 2))) := by
  have hz : ((omega : ℂ) + (eta : ℂ) * Complex.I - (E m i j : ℂ)).im = eta := by
    simp
  have hzre : ((omega : ℂ) + (eta : ℂ) * Complex.I - (E m i j : ℂ)).re = omega - E m i j := by
    simp
  have hc : (-1 / (π : ℂ)) * (1 / ((omega : ℂ) + (eta : ℂ) * Complex.I - (E m i j : ℂ)))
      = ((-1 / π : ℝ) : ℂ) * (1 / ((omega : ℂ) + (eta : ℂ) * Complex.I - (E m i j : ℂ))) := by
    push_cast
    ring
  have him : ((-1 / (π : ℂ)) * (1 / ((omega : ℂ) + (eta : ℂ) * Complex.I - (E m i j : ℂ)))).im
      = -(1 / π) * (1 / ((omega : ℂ) + (eta : ℂ) * Complex.I - (E m i j : ℂ))).im := by
    rw [hc, Complex.im_ofReal_mul]
    ring
  constructor
  · show (if |kGrid dim i| + |kGrid dim j| ≤ π then (1 : ℝ) else 0) * _ = _
    rw [him]
  · show (if |kGrid dim i| + |kGrid dim j| ≤ π then (1 : ℝ) else 0) * _ = _
    rw [him]
    congr 1
    rw [one_div ((omega : ℂ) + (eta : ℂ) * Complex.I - (E m i j : ℂ)), Complex.inv_im,
      Complex.normSq_apply, hz, hzre]
    ring

/-- Witness for C3 at a one-point grid, omega = 0, eta = 1 > 0 and zero energies. -/
theorem C3_filtered_witness :
    (0 : ℝ) < 1
    ∧ ((get_spectral_weight 0 1 1 (fun _ _ _ => 0) true).1 0 0 0
        = (if |kGrid 1 0| + |kGrid 1 0| ≤ π then 1 else 0)
          * (-(1 / π) * (1 / (((0 : ℝ) : ℂ) + ((1 : ℝ) : ℂ) * Complex.I - ((0 : ℝ) : ℂ))).im)
      ∧ (get_spectral_weight 0 1 1 (fun _ _ _ => 0) true).1 0 0 0
        = (if |kGrid 1 0| + |kGrid 1 0| ≤ π then 1 else 0)
          * (1 / π * ((1 : ℝ) / (((0 : ℝ) - 0) ^ 2 + (1 : ℝ) ^ 2)))) :=
  ⟨by norm_num, C3_filtered 0 1 (by norm_num) 1 (fun _ _ _ => 0) 0 0 0⟩

/-- Counterexample to C3 as stated: on a 928-point grid, at grid point
(0, 463), the sum |kx| + |ky| = π·928/927 exceeds π, so the code's exact
filter zeroes the entry, yet it rounds to 3.14 ≤ 3.14, so the claim's rounded
mask keeps the (nonzero) broadening value: the claimed and computed entries
differ. -/
theorem C3_counterexample :
    (get_spectral_weight 0 1 928 (fun _ _ _ => 0) true).1 0 0 463 = 0
    ∧ round2 (|kGrid 928 0| + |kGrid 928 463|) ≤ round2 π
    ∧ -(1 / π) * (1 / (((0 : ℝ) : ℂ) + ((1 : ℝ) : ℂ) * Complex.I - ((0 : ℝ) : ℂ))).im ≠ 0 := by
  have hg0 : kGrid 928 0 = -π := by
    simp [kGrid]
  have hg463 : kGrid 928 463 = -(π / 927) := by
    simp only [kGrid]
    push_cast
    field_simp
    ring
  have habs : |kGrid 928 0| + |kGrid 928 463| = π + π / 927 := by
    rw [hg0, hg463, abs_neg, abs_neg, abs_of_pos Real.pi_pos,
      abs_of_pos (by positivity : (0 : ℝ) < π / 927)]
  refine ⟨?_, ?_, ?_⟩
  · show (if (true : Bool) then (if |kGrid 928 0| + |kGrid 928 463| ≤ π then (1 : ℝ) else 0) else 1)
        * _ = 0
    rw [if_pos rfl, habs, if_neg (by nlinarith [Real.pi_pos]), zero_mul]
  · rw [habs]
    unfold round2
    have h1 : round (100 * (π + π / 927)) = 314 := by
      apply round_eq_of_bounds
      · push_cast
        nlinarith [Real.pi_gt_d2]
      · push_cast
        nlinarith [Real.pi_lt_d6]
    have h2 : round (100 * π) = 314 := by
      apply round_eq_of_bounds
      · push_cast
        nlinarith [Real.pi_gt_d2]
      · push_cast
        nlinarith [Real.pi_lt_d6]
    rw [h1, h2]
  · have hI : (((0 : ℝ) : ℂ) + ((1 : ℝ) : ℂ) * Complex.I - ((0 : ℝ) : ℂ)) = Complex.I := by
      push_cast
      ring
    rw [hI]
    simp [Complex.inv_I, Real.pi_ne_zero]

/-- Counterexample to C4 as stated: on a 2-point grid the second returned array
is the diamond outline, which is 0 at (0, 0) (because 2π does not round to π),
not the all-ones filter array. -/
theorem C4_counterexample :
    (get_spectral_weight 0 1 2 (fun _ _ _ => 0) false).2 0 0 ≠ 1 := by
  have hg : kGrid 2 0 = -π := by
    simp [kGrid]
  show (if round2 (|kGrid 2 0| + |kGrid 2 0|) = round2 π then (1 : ℝ) else 0) ≠ 1
  have habs : |kGrid 2 0| + |kGrid 2 0| = π + π := by
    rw [hg, abs_neg, abs_of_pos Real.pi_pos]
  rw [habs]
  unfold round2
  have h1 : round (100 * (π + π)) = 628 := by
    apply round_eq_of_bounds
    · push_cast
      nlinarith [Real.pi_gt_d2]
    · push_cast
      nlinarith [Real.pi_lt_d6]
  have h2 : round (100 * π) = 314 := by
    apply round_eq_of_bounds
    · push_cast
      nlinarith [Real.pi_gt_d2]
    · push_cast
      nlinarith [Real.pi_lt_d6]
  rw [h1, h2]
  norm_num
